import Mathlib

/-!
Shallow embedding of the `LocalVectorStore` vector store (`src/vector_store.py`)
and the `LocalRAG` orchestrator (`src/rag.py`) of the executive-order RAG
repository, together with proofs of the frozen claims about them.

Modelling conventions:
* Python/JSON values are modelled by the inductive type `Value`; a Python dict
  is an insertion-ordered association list (`Doc`).  Python floats are
  idealised as exact arithmetic: document/query numbers are rationals, and the
  cosine-similarity scores computed by `similarity_search` (which involve a
  square root) are represented exactly by a `Score` (a pair `num`, `den`
  denoting the real number `num / Real.sqrt den`), with a decidable order
  `Score.ble` that provably agrees with the real-number order `Score.val`.
* Exceptions are modelled by `Option`/`Except`: a `none`/`.error` result means
  the corresponding Python call raises.
* Files are modelled by their parsed contents (`LoadFile`): `save` produces
  the JSON value it would serialise, `load` consumes a missing file, an
  unparsable file, or a parsed JSON value.
-/

/-- Values of the JSON-ish data manipulated by the store: strings, numbers
(idealised as rationals), booleans, null, arrays, objects, and the similarity
scores attached to search results by `similarity_search` (Python floats of the
form `dot / (‖q‖ * ‖d‖)`, kept exact here as a `ScoreRep` pair). -/
inductive Value : Type where
  | vStr (s : String) : Value
  | vNum (q : ℚ) : Value
  | vBool (b : Bool) : Value
  | vNull : Value
  | vList (l : List Value) : Value
  | vObj (m : List (String × Value)) : Value
  | vScore (num den : ℚ) : Value

/-- A Python dict document: an insertion-ordered association list. -/
abbrev Doc : Type := List (String × Value)

/-- Python `d[k]` / `d.get(k)`: value of the first (unique) matching key. -/
def getVal (d : Doc) (k : String) : Option Value :=
  (d.find? (fun p => p.1 = k)).map (fun p => p.2)

/-- Python `k in d` for a dict. -/
def hasKey (d : Doc) (k : String) : Bool :=
  d.any (fun p => p.1 = k)

/-- Python `d[k] = v`: replace in place when the key exists, else append. -/
def setVal (d : Doc) (k : String) (v : Value) : Doc :=
  if hasKey d k then d.map (fun p => if p.1 = k then (k, v) else p)
  else d ++ [(k, v)]

/-- Python `del d[k]`. -/
def delKey (d : Doc) (k : String) : Doc :=
  d.filter (fun p => ¬ p.1 = k)

/-- Whether a string occurs as a contiguous substring of another (Python
`needle in hay` for strings). -/
def isSubstr (needle hay : String) : Bool :=
  hay.toList.tails.any (fun t => needle.toList.isPrefixOf t)

/-- Python `field in v` (membership test), raising (`none`) on values that do
not support `in`: substring test on strings, key test on dicts, element test
on lists, `TypeError` on numbers, booleans and `None`. -/
def checkFieldIn (field : String) : Value → Option Bool
  | .vObj m => some (hasKey m field)
  | .vStr s => some (isSubstr field s)
  | .vList l => some (l.any (fun v => match v with | .vStr s => s = field | _ => false))
  | _ => none

/-- Python `for x in v`: the sequence iterated over, `none` when `v` is not
iterable (numbers, booleans, `None`).  Iterating a string yields its
characters; iterating a dict yields its keys. -/
def iterateVal : Value → Option (List Value)
  | .vList l => some l
  | .vStr s => some (s.toList.map (fun c => Value.vStr (String.singleton c)))
  | .vObj m => some (m.map (fun p => Value.vStr p.1))
  | _ => none

/-- Whether a value is a dict. -/
def Value.isObj : Value → Bool
  | .vObj _ => true
  | _ => false

/-- Whether a value is a list whose elements are all numbers — the shape
`np.array(...)` turns into a 1-D float vector. -/
def Value.isNumList : Value → Bool
  | .vList l => l.all (fun v => match v with | .vNum _ => true | _ => false)
  | _ => false

/-- Numeric reading of a scalar JSON value (`np.array` treats booleans as
numbers). -/
def toFloat? : Value → Option ℚ
  | .vNum q => some q
  | .vBool b => some (if b then 1 else 0)
  | _ => none

/-- The float vector `np.array(v)` makes of a stored embedding value.  A value
that is not a list of numbers is mapped to the empty vector (such junk values
never occur in the well-formed stores the claims quantify over; see
`Store.numericEmbs`). -/
def asVec (v : Value) : List ℚ :=
  match v with
  | .vList l => (l.mapM toFloat?).getD []
  | _ => []

/-- Sum of squares of a vector: the square of `np.linalg.norm`.  The code only
ever compares norms with `0`, and `‖v‖ > 0 ↔ sqNormQ v > 0`, so norms
themselves never need a square root. -/
def sqNormQ (v : List ℚ) : ℚ :=
  (v.map (fun x => x * x)).sum

/-- Dot product `np.dot` of two 1-D vectors; `none` models the `ValueError`
numpy raises when the lengths differ. -/
def dotQ : List ℚ → List ℚ → Option ℚ
  | [], [] => some 0
  | [], _ :: _ => none
  | _ :: _, [] => none
  | x :: xs, y :: ys => (dotQ xs ys).map (fun t => x * y + t)

/-- Exact representation of a cosine-similarity float: the real number
`num / Real.sqrt den` (in the program, `num = np.dot(q, d)` and
`den = ‖q‖² * ‖d‖²`, so the value is `dot / (‖q‖ * ‖d‖)`). -/
structure Score : Type where
  num : ℚ
  den : ℚ
deriving DecidableEq, Repr

/-- Real value of a score.  The program only ever forms scores with positive
`den`; the `den ≤ 0` branch merely totalises the function. -/
noncomputable def Score.val (s : Score) : ℝ :=
  if s.den ≤ 0 then 0 else (s.num : ℝ) / Real.sqrt (s.den : ℝ)

/-- Decidable comparison of two score values, agreeing with `Score.val`
(`Score.ble_iff`).  Positive-denominator comparisons reduce to sign analysis
plus cross-multiplied squares. -/
def Score.ble (a b : Score) : Bool :=
  if a.den ≤ 0 then
    (if b.den ≤ 0 then true else decide (0 ≤ b.num))
  else if b.den ≤ 0 then decide (a.num ≤ 0)
  else if a.num < 0 then
    decide (0 ≤ b.num) || decide (b.num * b.num * a.den ≤ a.num * a.num * b.den)
  else
    decide (0 ≤ b.num) && decide (a.num * a.num * b.den ≤ b.num * b.num * a.den)

/-- The ordering used to sort `(index, score)` pairs: descending by score,
matching Python `similarities.sort(key=lambda x: x[1], reverse=True)`. -/
def simGE (a b : Nat × Score) : Prop := Score.ble b.2 a.2 = true

instance simGE_dec : DecidableRel simGE := fun a b => by
  unfold simGE
  infer_instance

/-- The field-name configuration of `LocalVectorStore.__init__`. -/
structure Config : Type where
  embeddings_field : String := "embedding"
  content_field : String := "content"
  metadata_field : String := "metadata"
deriving DecidableEq, Repr

/-- State of a `LocalVectorStore`: configuration, optional persist directory,
and the parallel `documents` / `embeddings` lists. -/
structure Store : Type where
  cfg : Config
  persist_directory : Option String
  documents : List Doc
  embeddings : List (List ℚ)

/-- `LocalVectorStore.__init__`: empty parallel lists. -/
def Store.init (cfg : Config) (persist : Option String) : Store :=
  ⟨cfg, persist, [], []⟩

/-- One iteration of the `add_documents` loop on a single batch entry: skip
it when it misses the embeddings field or the content field, append it (and
its `np.array` vector) otherwise.  An `.error` result models an uncaught
exception (the membership test on a number, or `doc[...]`-indexing on a
non-dict); it carries the state the lists were left in. -/
def addOne (cfg : Config) (v : Value) (docs : List Doc) (embs : List (List ℚ))
    (n : Nat) :
    Except (List Doc × List (List ℚ)) (List Doc × List (List ℚ) × Nat) :=
  match checkFieldIn cfg.embeddings_field v with
  | none => .error (docs, embs)
  | some false => .ok (docs, embs, n)
  | some true =>
    match checkFieldIn cfg.content_field v with
    | none => .error (docs, embs)
    | some false => .ok (docs, embs, n)
    | some true =>
      match v with
      | .vObj m =>
        .ok (docs ++ [m],
          embs ++ [asVec ((getVal m cfg.embeddings_field).getD .vNull)], n + 1)
      | _ => .error (docs, embs)

/-- The `add_documents` loop over the whole batch, threading the partial
state; an exception aborts the walk. -/
def addLoop (cfg : Config) :
    List Value → List Doc → List (List ℚ) → Nat →
      Except (List Doc × List (List ℚ)) (List Doc × List (List ℚ) × Nat)
  | [], docs, embs, n => .ok (docs, embs, n)
  | v :: rest, docs, embs, n =>
    match addOne cfg v docs embs n with
    | .error s => .error s
    | .ok (docs2, embs2, n2) => addLoop cfg rest docs2 embs2 n2

/-- `LocalVectorStore.add_documents`. -/
def Store.add_documents (st : Store) (batch : List Value) : Except Store (Store × Nat) :=
  match addLoop st.cfg batch st.documents st.embeddings 0 with
  | .ok (d, e, n) => .ok ({ st with documents := d, embeddings := e }, n)
  | .error (d, e) => .error { st with documents := d, embeddings := e }

/-- The similarity loop of `similarity_search` over
`enumerate(self.embeddings)` starting at index `i`: a pair `(i, score)` is
recorded only when both the query norm and the document norm are positive, and
the division `dot / (‖q‖ * ‖d‖)` is represented exactly as the score
`⟨dot, ‖q‖² * ‖d‖²⟩`.  `none` models the `ValueError` raised by `np.dot` on a
length mismatch. -/
def simsFrom (q : List ℚ) : Nat → List (List ℚ) → Option (List (Nat × Score))
  | _, [] => some []
  | i, d :: ds =>
    if 0 < sqNormQ q ∧ 0 < sqNormQ d then
      match dotQ q d with
      | none => none
      | some dv =>
        (simsFrom q (i + 1) ds).map
          (fun rest => (i, Score.mk dv (sqNormQ q * sqNormQ d)) :: rest)
    else simsFrom q (i + 1) ds

/-- Result construction of `similarity_search`: copy the stored document, set
`similarity_score`, and delete the embeddings field when present. -/
def mkResult (cfg : Config) (d : Doc) (s : Score) : Doc :=
  let d1 := setVal d "similarity_score" (Value.vScore s.num s.den)
  if hasKey d1 cfg.embeddings_field then delKey d1 cfg.embeddings_field else d1

/-- `LocalVectorStore.similarity_search`: empty-store early return, cosine
similarities, stable descending sort (Python `list.sort(key=..., reverse=True)`
is a stable sort, whose output `List.insertionSort` reproduces), threshold
filter, truncation to `k`, and result construction. -/
def Store.similarity_search (st : Store) (q : List ℚ) (k : Nat)
    (score_threshold : Option ℚ) : Option (List Doc) :=
  if st.embeddings.isEmpty then some []
  else
    match simsFrom q 0 st.embeddings with
    | none => none
    | some sims =>
      let sorted := List.insertionSort simGE sims
      let filtered : List (Nat × Score) := match score_threshold with
        | some t => sorted.filter (fun (p : Nat × Score) => Score.ble (Score.mk t 1) p.2)
        | none => sorted
      let topk := filtered.take k
      some (topk.map (fun (p : Nat × Score) =>
        mkResult st.cfg (st.documents.getD p.1 []) p.2))

/-- The JSON snapshot `LocalVectorStore.save` writes:
`{"documents": [...], "metadata": {...}}`; `now` stands for the
`datetime.now().isoformat()` timestamp. -/
def snapOf (st : Store) (now : String) : Value :=
  .vObj [("documents", .vList (st.documents.map .vObj)),
    ("metadata", .vObj [("count", .vNum (st.documents.length : ℚ)),
      ("created_at", .vStr now),
      ("embeddings_field", .vStr st.cfg.embeddings_field),
      ("content_field", .vStr st.cfg.content_field),
      ("metadata_field", .vStr st.cfg.metadata_field)])]

/-- `LocalVectorStore.save` proper: fails without a persist directory,
otherwise writes the snapshot. -/
def Store.save (st : Store) (now : String) : Option Value :=
  match st.persist_directory with
  | none => none
  | some _ => some (snapOf st now)

/-- A vector-store file as `load` sees it: missing, unreadable/unparsable, or
parsed into a JSON value. -/
inductive LoadFile : Type where
  | missing : LoadFile
  | malformed : LoadFile
  | parsed (v : Value) : LoadFile

/-- `LocalVectorStore.load`.  Missing or malformed files fail inside the
`try` before any mutation.  On a parsed value, `data.get("documents", [])`
raises (`AttributeError`) on a non-dict before any mutation; afterwards the
lists are cleared and `add_documents` runs, so a non-iterable `documents`
value or an entry that raises leaves the store cleared or partially loaded
while still returning `False`. -/
def Store.load (st : Store) (f : LoadFile) : Bool × Store :=
  match f with
  | .missing => (false, st)
  | .malformed => (false, st)
  | .parsed v =>
    match v with
    | .vObj fields =>
      let docsVal := (getVal fields "documents").getD (.vList [])
      match iterateVal docsVal with
      | none => (false, { st with documents := [], embeddings := [] })
      | some items =>
        match addLoop st.cfg items [] [] 0 with
        | .ok (d, e, _) => (true, { st with documents := d, embeddings := e })
        | .error (d, e) => (false, { st with documents := d, embeddings := e })
    | _ => (false, st)

/-- `LocalVectorStore.get_document_by_id`: linear scan for the first document
whose `id_field` equals the given string id. -/
def Store.get_document_by_id (st : Store) (doc_id : String) (id_field : String) :
    Option Doc :=
  st.documents.find? (fun d =>
    hasKey d id_field &&
      (match getVal d id_field with
       | some (.vStr s) => decide (s = doc_id)
       | _ => false))

/-- Every stored document carries both the embeddings field and the content
field (true of every store built through `add_documents` / `load`). -/
def Store.wfDocs (st : Store) : Bool :=
  st.documents.all (fun d =>
    hasKey d st.cfg.embeddings_field && hasKey d st.cfg.content_field)

/-- Every stored document's embeddings field is a list of numbers, the shape
the data model prescribes (on such stores the `asVec` reading of embeddings
agrees with numpy, which would raise on junk-shaped embedding values). -/
def Store.numericEmbs (st : Store) : Bool :=
  st.documents.all (fun d =>
    match getVal d st.cfg.embeddings_field with
    | some v => v.isNumList
    | none => false)

/-- The parallel-lists invariant: the embeddings list is exactly the
pointwise `asVec` reading of the documents' embeddings field. -/
def Store.Inv (st : Store) : Prop :=
  st.embeddings =
    st.documents.map (fun d => asVec ((getVal d st.cfg.embeddings_field).getD .vNull))

/-- Stores reachable from `__init__` by any sequence of mutating operations
(`add_documents`, successful or raising, and `load`; `save`,
`similarity_search` and `get_document_by_id` do not write the state). -/
inductive Reachable : Store → Prop where
  | init (cfg : Config) (persist : Option String) : Reachable (Store.init cfg persist)
  | add_ok (st : Store) (batch : List Value) (st2 : Store) (n : Nat) :
      Reachable st → st.add_documents batch = .ok (st2, n) → Reachable st2
  | add_err (st : Store) (batch : List Value) (st2 : Store) :
      Reachable st → st.add_documents batch = .error st2 → Reachable st2
  | load_any (st : Store) (f : LoadFile) (b : Bool) (st2 : Store) :
      Reachable st → st.load f = (b, st2) → Reachable st2

/-- Conversation history passed through to the LLM client. -/
abbrev ChatHistory := Option (List (String × String))

/-- State of a `LocalRAG`: the loaded vector store, retrieval parameters, and
the two external collaborators (embedding provider and LLM client) as opaque
functions. -/
structure LocalRAG : Type where
  vector_store : Store
  top_k : Nat
  similarity_threshold : Option ℚ
  embed : String → List ℚ
  llm : String → List String → ChatHistory → String

/-- `LocalRAG.retrieve`: embed the query and delegate to `similarity_search`
with `k = top_k or self.top_k` (Python `or` falls back on `None` and on `0`)
and the configured threshold. -/
def LocalRAG.retrieve (rag : LocalRAG) (query : String) (top_k : Option Nat) :
    Option (List Doc) :=
  rag.vector_store.similarity_search (rag.embed query)
    (match top_k with
     | some n => if n = 0 then rag.top_k else n
     | none => rag.top_k)
    rag.similarity_threshold

/-- Python `str()` of a value as used in f-strings; composite values are
abbreviated (no claim depends on their rendering). -/
def valueToStr : Value → String
  | .vStr s => s
  | .vNum q => toString q
  | .vBool b => if b then "True" else "False"
  | .vNull => "None"
  | .vList _ => "[list]"
  | .vObj _ => "[dict]"
  | .vScore _ _ => "[score]"

/-- `LocalRAG.format_context`: per-document blocks with a metadata header,
joined by the fixed delimiter. -/
def format_context (documents : List Doc) : String :=
  let parts := documents.enum.map (fun p =>
    let doc := p.2
    let content := match getVal doc "content" with
      | some v => valueToStr v
      | none => ""
    let metadata : Doc := match getVal doc "metadata" with
      | some (.vObj m) => m
      | _ => []
    let metadataStr :=
      if metadata.isEmpty then ""
      else
        let source := valueToStr ((getVal metadata "source_filename").getD
          (.vStr "Unknown source"))
        if hasKey metadata "title" then
          "Title: " ++ valueToStr ((getVal metadata "title").getD .vNull) ++
            "\nSource: " ++ source
        else if hasKey metadata "eo_number" then
          "Executive Order: " ++ valueToStr ((getVal metadata "eo_number").getD .vNull) ++
            "\nSource: " ++ source
        else "Source: " ++ source
    "[Document " ++ toString (p.1 + 1) ++ "]:\n" ++ metadataStr ++ "\n\n" ++
      content ++ "\n")
  String.intercalate "\n----\n" parts

/-- `LocalRAG.extract_source_documents`: citation metadata per retrieved
document (title falling back to source filename, then optional executive-order
number, page and chunk id). -/
def extract_source_documents (documents : List Doc) : List Doc :=
  documents.map (fun doc =>
    let metadata : Doc := match getVal doc "metadata" with
      | some (.vObj m) => m
      | _ => []
    let s0 : Doc := [("title", (getVal metadata "title").getD
      ((getVal metadata "source_filename").getD (.vStr "Unknown Source")))]
    let s1 := if hasKey metadata "eo_number" then
        s0 ++ [("eo_number", (getVal metadata "eo_number").getD .vNull)]
      else s0
    let s2 := if hasKey metadata "page_number" then
        s1 ++ [("page", (getVal metadata "page_number").getD .vNull)]
      else s1
    if hasKey doc "id" then s2 ++ [("chunk_id", (getVal doc "id").getD .vNull)]
    else s2)

/-- The fixed no-results answer of `process_query`. -/
def noInfoMsg : String :=
  "I couldn\x27t find any relevant information to answer your question."

/-- `LocalRAG.process_query`, instrumented with the list of LLM invocations
(arguments of each `generate_response` call) so that "the LLM client is never
invoked" is directly observable; `none` models an uncaught exception from
retrieval. -/
def LocalRAG.process_query (rag : LocalRAG) (query : String)
    (chat_history : ChatHistory) :
    Option (String × List Doc × List (String × List String × ChatHistory)) :=
  match rag.retrieve query none with
  | none => none
  | some retrieved_docs =>
    if retrieved_docs.isEmpty then some (noInfoMsg, [], [])
    else
      let context := format_context retrieved_docs
      let response := rag.llm query [context] chat_history
      some (response, extract_source_documents retrieved_docs,
        [(query, [context], chat_history)])

/-- The `asVec` reading of a document's embeddings field: the vector that
`add_documents` pairs with the document in the parallel lists. -/
def embOf (cfg : Config) (d : Doc) : List ℚ :=
  asVec ((getVal d cfg.embeddings_field).getD .vNull)

/-- Which batch entries `add_documents` keeps: dicts carrying both the
configured embeddings field and the configured content field. -/
def keepDoc (cfg : Config) (v : Value) : Option Doc :=
  match v with
  | .vObj m =>
    if hasKey m cfg.embeddings_field && hasKey m cfg.content_field then some m
    else none
  | _ => none

/-- Whether a stored embedding vector contributes, for query `q`, a similarity
entry meeting threshold `t`: both norms positive and cosine score at least
`t`. -/
def passesThreshold (q : List ℚ) (t : ℚ) (d : List ℚ) : Bool :=
  decide (0 < sqNormQ q) && decide (0 < sqNormQ d) &&
    (match dotQ q d with
     | some dv => Score.ble (Score.mk t 1) (Score.mk dv (sqNormQ q * sqNormQ d))
     | none => false)

/-- The real similarity score carried by a search result. -/
noncomputable def resVal (r : Doc) : ℝ :=
  match getVal r "similarity_score" with
  | some (.vScore n dn) => (Score.mk n dn).val
  | _ => 0

/-- A concrete one-document store used as the witness fixture: default field
names, no persist directory, one embedded document. -/
def docA : Doc :=
  [("content", Value.vStr "a"), ("embedding", Value.vList [Value.vNum 1, Value.vNum 0])]

/-- Witness store holding just `docA`. -/
def stOne : Store := ⟨{}, none, [docA], [[1, 0]]⟩

/-- The search result `similarity_search` builds from `docA` for query
`[1, 0]`: content kept, score attached, embedding stripped. -/
def resA : Doc :=
  [("content", Value.vStr "a"), ("similarity_score", Value.vScore 1 1)]

/-- Witness store with a persist directory. -/
def stOneP : Store := ⟨{}, some "snapshots", [docA], [[1, 0]]⟩

/-- Witness RAG over an empty store with inert collaborators. -/
def ragW : LocalRAG :=
  ⟨Store.init {} none, 4, some (2 / 5), fun _ => [], fun _ _ _ => ""⟩

/-- Scenario-3 batch: one well-formed document and one missing `content`. -/
def batchW : List Value :=
  [Value.vObj docA, Value.vObj [("embedding", Value.vList [Value.vNum 1])]]

/-- A document whose embedding length (3) differs from `stOne`'s established
dimension (2). -/
def mdoc : Doc :=
  [("content", Value.vStr "b"),
    ("embedding", Value.vList [Value.vNum 1, Value.vNum 2, Value.vNum 3])]

/-- The same mismatched document as a batch entry. -/
def mismatchDoc : Value := .vObj mdoc

/-- A parsed JSON file whose `documents` value is a number: valid JSON, but
iterating it in `add_documents` raises `TypeError` after the store was
cleared. -/
def badFile : LoadFile := .parsed (.vObj [("documents", Value.vNum 5)])

theorem sqNormQ_nonneg (v : List ℚ) : 0 ≤ sqNormQ v := by
  apply List.sum_nonneg
  intro x hx
  rcases List.mem_map.mp hx with ⟨y, _, rfl⟩
  exact mul_self_nonneg y

theorem sqNormQ_cons (x : ℚ) (xs : List ℚ) :
    sqNormQ (x :: xs) = x * x + sqNormQ xs := by
  simp [sqNormQ]

/-- Cauchy–Schwarz for the exact dot product: whenever `np.dot` succeeds, its
square is bounded by the product of the squared norms. -/
theorem dotQ_sq_le_sqNorm_mul (a b : List ℚ) (s : ℚ) (h : dotQ a b = some s) :
    s * s ≤ sqNormQ a * sqNormQ b := by
  induction a generalizing b s with
  | nil =>
    cases b with
    | nil =>
      simp only [dotQ, Option.some.injEq] at h
      subst h
      simp [sqNormQ]
    | cons y ys => simp [dotQ] at h
  | cons x xs ih =>
    cases b with
    | nil => simp [dotQ] at h
    | cons y ys =>
      have h2 : (dotQ xs ys).map (fun t => x * y + t) = some s := h
      cases ht : dotQ xs ys with
      | none => rw [ht] at h2; simp at h2
      | some t =>
        rw [ht] at h2
        simp at h2
        subst h2
        have hA : 0 ≤ sqNormQ xs := sqNormQ_nonneg xs
        have hB : 0 ≤ sqNormQ ys := sqNormQ_nonneg ys
        have iht : t * t ≤ sqNormQ xs * sqNormQ ys := ih ys t ht
        rw [sqNormQ_cons, sqNormQ_cons]
        rcases eq_or_lt_of_le hA with hA0 | hApos
        · have hAB : sqNormQ xs * sqNormQ ys = 0 := by rw [← hA0]; ring
          have ht0 : t = 0 := by nlinarith [mul_self_nonneg t]
          subst ht0
          nlinarith [mul_nonneg (mul_self_nonneg x) hB, mul_self_nonneg (x * y)]
        · nlinarith [sq_nonneg (sqNormQ xs * y - x * t),
            mul_nonneg (sub_nonneg.mpr iht)
              (add_nonneg (mul_self_nonneg x) hA), hApos, hB]

theorem Score.val_of_pos (s : Score) (h : 0 < s.den) :
    s.val = (s.num : ℝ) / Real.sqrt (s.den : ℝ) := by
  rw [Score.val, if_neg (not_le.mpr h)]

theorem Score.val_of_nonpos (s : Score) (h : s.den ≤ 0) : s.val = 0 := by
  rw [Score.val, if_pos h]

/-- A rational threshold `t`, seen as the score `t / √1`, has real value `t`. -/
theorem Score.val_mk_one (t : ℚ) : (Score.mk t 1).val = t := by
  rw [Score.val_of_pos _ (by norm_num)]
  simp [Real.sqrt_one]

theorem mul_sqrt_le_mul_sqrt_iff (x y u v : ℚ) (hx : 0 ≤ x) (hy : 0 ≤ y)
    (hu : 0 < u) (hv : 0 < v) :
    ((x : ℝ) * Real.sqrt (v : ℝ) ≤ (y : ℝ) * Real.sqrt (u : ℝ)) ↔
      x * x * v ≤ y * y * u := by
  have hxr : (0 : ℝ) ≤ (x : ℝ) := by exact_mod_cast hx
  have hyr : (0 : ℝ) ≤ (y : ℝ) := by exact_mod_cast hy
  have hur : (0 : ℝ) ≤ (u : ℝ) := by positivity
  have hvr : (0 : ℝ) ≤ (v : ℝ) := by positivity
  have hxx : (0 : ℝ) ≤ (x : ℝ) * Real.sqrt (v : ℝ) :=
    mul_nonneg hxr (Real.sqrt_nonneg _)
  have hyy : (0 : ℝ) ≤ (y : ℝ) * Real.sqrt (u : ℝ) :=
    mul_nonneg hyr (Real.sqrt_nonneg _)
  rw [mul_self_le_mul_self_iff hxx hyy, mul_mul_mul_comm, Real.mul_self_sqrt hvr,
    mul_mul_mul_comm, Real.mul_self_sqrt hur]
  exact_mod_cast Iff.rfl

/-- The decidable comparison `Score.ble` agrees with the real order on score
values. -/
theorem Score.ble_iff (a b : Score) : Score.ble a b = true ↔ a.val ≤ b.val := by
  by_cases ha : a.den ≤ 0
  · by_cases hb : b.den ≤ 0
    · simp [Score.ble, ha, hb, Score.val_of_nonpos a ha, Score.val_of_nonpos b hb]
    · have hbpos : 0 < b.den := not_le.mp hb
      have hsq : (0 : ℝ) < Real.sqrt (b.den : ℝ) :=
        Real.sqrt_pos.mpr (by exact_mod_cast hbpos)
      rw [Score.val_of_nonpos a ha, Score.val_of_pos b hbpos]
      simp only [Score.ble, if_pos ha, if_neg hb, decide_eq_true_eq]
      rw [le_div_iff hsq]
      simp
  · have hapos : 0 < a.den := not_le.mp ha
    have hsqa : (0 : ℝ) < Real.sqrt (a.den : ℝ) :=
      Real.sqrt_pos.mpr (by exact_mod_cast hapos)
    by_cases hb : b.den ≤ 0
    · rw [Score.val_of_nonpos b hb, Score.val_of_pos a hapos]
      simp only [Score.ble, if_neg ha, if_pos hb, decide_eq_true_eq]
      rw [div_le_iff hsqa]
      simp
    · have hbpos : 0 < b.den := not_le.mp hb
      have hsqb : (0 : ℝ) < Real.sqrt (b.den : ℝ) :=
        Real.sqrt_pos.mpr (by exact_mod_cast hbpos)
      rw [Score.val_of_pos a hapos, Score.val_of_pos b hbpos,
        div_le_div_iff hsqa hsqb]
      by_cases han : a.num < 0
      · by_cases hbn : 0 ≤ b.num
        · have : (a.num : ℝ) * Real.sqrt (b.den : ℝ) ≤
              (b.num : ℝ) * Real.sqrt (a.den : ℝ) := by
            have h1 : (a.num : ℝ) * Real.sqrt (b.den : ℝ) ≤ 0 :=
              mul_nonpos_of_nonpos_of_nonneg
                (by exact_mod_cast han.le) (Real.sqrt_nonneg _)
            have h2 : (0 : ℝ) ≤ (b.num : ℝ) * Real.sqrt (a.den : ℝ) :=
              mul_nonneg (by exact_mod_cast hbn) (Real.sqrt_nonneg _)
            linarith
          simp [Score.ble, ha, hb, han, hbn, this]
        · have hbn2 : b.num < 0 := not_le.mp hbn
          have key : ((a.num : ℝ) * Real.sqrt (b.den : ℝ) ≤
              (b.num : ℝ) * Real.sqrt (a.den : ℝ)) ↔
              b.num * b.num * a.den ≤ a.num * a.num * b.den := by
            rw [← neg_le_neg_iff, ← neg_mul, ← neg_mul]
            have := mul_sqrt_le_mul_sqrt_iff (-b.num) (-a.num) b.den a.den
              (by linarith) (by linarith) hbpos hapos
            rw [Rat.cast_neg, Rat.cast_neg] at this
            rw [this]
            constructor <;> intro h <;> nlinarith [h]
          simp only [Score.ble, if_neg ha, if_neg hb, if_pos han,
            Bool.or_eq_true, decide_eq_true_eq]
          rw [key]
          constructor
          · rintro (h | h)
            · exact absurd h hbn
            · exact h
          · intro h; exact Or.inr h
      · have han2 : 0 ≤ a.num := not_lt.mp han
        by_cases hbn : 0 ≤ b.num
        · have key := mul_sqrt_le_mul_sqrt_iff a.num b.num a.den b.den
            han2 hbn hapos hbpos
          simp only [Score.ble, if_neg ha, if_neg hb, if_neg han,
            Bool.and_eq_true, decide_eq_true_eq]
          rw [key]
          constructor
          · rintro ⟨_, h⟩; exact h
          · intro h; exact ⟨hbn, h⟩
        · have hbn2 : b.num < 0 := not_le.mp hbn
          have : ¬ ((a.num : ℝ) * Real.sqrt (b.den : ℝ) ≤
              (b.num : ℝ) * Real.sqrt (a.den : ℝ)) := by
            push_neg
            have h1 : (b.num : ℝ) * Real.sqrt (a.den : ℝ) < 0 :=
              mul_neg_of_neg_of_pos (by exact_mod_cast hbn2) hsqa
            have h2 : (0 : ℝ) ≤ (a.num : ℝ) * Real.sqrt (b.den : ℝ) :=
              mul_nonneg (by exact_mod_cast han2) (Real.sqrt_nonneg _)
            linarith
          simp [Score.ble, ha, hb, han, hbn, this]

theorem Score.ble_total (a b : Score) : Score.ble a b = true ∨ Score.ble b a = true := by
  rcases le_total a.val b.val with h | h
  · exact Or.inl ((Score.ble_iff a b).mpr h)
  · exact Or.inr ((Score.ble_iff b a).mpr h)

theorem Score.ble_trans (a b c : Score) (h1 : Score.ble a b = true)
    (h2 : Score.ble b c = true) : Score.ble a c = true :=
  (Score.ble_iff a c).mpr (le_trans ((Score.ble_iff a b).mp h1) ((Score.ble_iff b c).mp h2))

/-- Any score whose numerator satisfies the Cauchy–Schwarz bound has real
value in `[-1, 1]`. -/
theorem Score.val_bound (s : Score) (hden : 0 < s.den)
    (h : s.num * s.num ≤ s.den) : -1 ≤ s.val ∧ s.val ≤ 1 := by
  have hdr : (0 : ℝ) < (s.den : ℝ) := by exact_mod_cast hden
  have hsq : (0 : ℝ) < Real.sqrt (s.den : ℝ) := Real.sqrt_pos.mpr hdr
  have hr : ((s.num : ℝ)) ^ 2 ≤ (s.den : ℝ) := by
    rw [sq]
    exact_mod_cast h
  have hb := (Real.sq_le hdr.le).mp hr
  rw [Score.val_of_pos s hden]
  constructor
  · rw [le_div_iff hsq]
    calc (-1 : ℝ) * Real.sqrt (s.den : ℝ) = -Real.sqrt (s.den : ℝ) := by ring
    _ ≤ (s.num : ℝ) := hb.1
  · rw [div_le_one hsq]
    exact hb.2


/-- Totality of the sort order on `(index, score)` pairs. -/
theorem simGE_total : IsTotal (Nat × Score) simGE :=
  ⟨fun a b => (Score.ble_total b.2 a.2).elim Or.inl Or.inr⟩

/-- Transitivity of the sort order on `(index, score)` pairs. -/
theorem simGE_trans : IsTrans (Nat × Score) simGE :=
  ⟨fun _ b _ h1 h2 => Score.ble_trans _ b.2 _ h2 h1⟩
theorem getVal_eq_none_of_not_hasKey (d : Doc) (k : String) (h : hasKey d k = false) :
    getVal d k = none := by
  unfold getVal
  rw [List.find?_eq_none.mpr]
  · rfl
  · intro p hp
    intro hk
    have : hasKey d k = true := by
      unfold hasKey
      rw [List.any_eq_true]
      exact ⟨p, hp, hk⟩
    rw [h] at this
    exact Bool.false_ne_true this

theorem find?_key_map_replace : ∀ (d : Doc) (k : String) (v : Value),
    hasKey d k = true →
    List.find? (fun p => p.1 = k) (d.map (fun p => if p.1 = k then (k, v) else p)) =
      some (k, v) := by
  intro d k v
  induction d with
  | nil => intro h; simp [hasKey] at h
  | cons q d ih =>
    intro h
    unfold hasKey at h
    rw [List.any_cons] at h
    by_cases hq : q.1 = k
    · rw [List.map_cons, if_pos hq]
      exact List.find?_cons_of_pos _ (by simp)
    · rw [List.map_cons, if_neg hq]
      rw [List.find?_cons_of_neg _ (by simp [hq])]
      apply ih
      cases hqa : (decide (q.1 = k)) with
      | true => exact absurd (of_decide_eq_true hqa) hq
      | false =>
        rw [hqa, Bool.false_or] at h
        exact h

theorem getVal_append_single : ∀ (d : Doc) (k : String) (v : Value),
    hasKey d k = false → getVal (d ++ [(k, v)]) k = some v := by
  intro d k v
  induction d with
  | nil =>
    intro _
    unfold getVal
    rw [List.nil_append, List.find?_cons_of_pos _ (by simp)]
    rfl
  | cons q d ih =>
    intro h
    unfold hasKey at h
    rw [List.any_cons, Bool.or_eq_false_iff] at h
    unfold getVal at ih ⊢
    rw [List.cons_append, List.find?_cons_of_neg _ (by simp [h.1])]
    exact ih h.2

theorem getVal_setVal_self (d : Doc) (k : String) (v : Value) :
    getVal (setVal d k v) k = some v := by
  unfold setVal
  by_cases h : hasKey d k = true
  · rw [if_pos h]
    unfold getVal
    rw [find?_key_map_replace d k v h]
    rfl
  · rw [if_neg h]
    exact getVal_append_single d k v (by
      cases hh : hasKey d k
      · rfl
      · exact absurd hh h)

theorem getVal_delKey_self (d : Doc) (k : String) :
    getVal (delKey d k) k = none := by
  unfold getVal delKey
  rw [List.find?_eq_none.mpr]
  · rfl
  · intro p hp
    rw [List.mem_filter] at hp
    simpa using hp.2

theorem getVal_delKey_ne (d : Doc) (k j : String) (h : j ≠ k) :
    getVal (delKey d k) j = getVal d j := by
  unfold delKey
  induction d with
  | nil => rfl
  | cons p d ih =>
    rw [List.filter_cons]
    by_cases hp : p.1 = k
    · rw [if_neg (by simp [hp])]
      unfold getVal
      rw [List.find?_cons_of_neg _ (by
        simp only [decide_eq_true_eq]
        rw [hp]
        exact fun hh => h hh.symm)]
      exact ih
    · rw [if_pos (by simp [hp])]
      by_cases hj : p.1 = j
      · unfold getVal
        rw [List.find?_cons_of_pos _ (by simp [hj]),
          List.find?_cons_of_pos _ (by simp [hj])]
      · unfold getVal
        rw [List.find?_cons_of_neg _ (by simp [hj]),
          List.find?_cons_of_neg _ (by simp [hj])]
        exact ih

theorem getVal_mkResult_score (cfg : Config) (d : Doc) (s : Score)
    (h : cfg.embeddings_field ≠ "similarity_score") :
    getVal (mkResult cfg d s) "similarity_score" = some (.vScore s.num s.den) := by
  unfold mkResult
  by_cases hk : hasKey (setVal d "similarity_score" (Value.vScore s.num s.den))
      cfg.embeddings_field = true
  · simp only [hk, if_true]
    rw [getVal_delKey_ne _ _ _ (fun hh => h hh.symm)]
    exact getVal_setVal_self d _ _
  · simp only [hk, if_false, Bool.false_eq_true]
    exact getVal_setVal_self d _ _

theorem mkResult_emb_none (cfg : Config) (d : Doc) (s : Score) :
    getVal (mkResult cfg d s) cfg.embeddings_field = none := by
  unfold mkResult
  by_cases hk : hasKey (setVal d "similarity_score" (Value.vScore s.num s.den))
      cfg.embeddings_field = true
  · simp only [hk, if_true]
    exact getVal_delKey_self _ _
  · simp only [hk, if_false, Bool.false_eq_true]
    exact getVal_eq_none_of_not_hasKey _ _ (by
      cases hh : hasKey (setVal d "similarity_score" (Value.vScore s.num s.den))
          cfg.embeddings_field
      · rfl
      · exact absurd hh hk)

theorem simsFrom_of_qnorm_nonpos : ∀ (q : List ℚ) (i : Nat) (ds : List (List ℚ)),
    ¬ 0 < sqNormQ q → simsFrom q i ds = some [] := by
  intro q i ds
  induction ds generalizing i with
  | nil => intro _; rfl
  | cons d ds ih =>
    intro h
    unfold simsFrom
    rw [if_neg (fun hc => h hc.1)]
    exact ih (i + 1) h

/-- Characterisation of the members of the similarity list: each recorded pair
comes from a stored embedding at a definite index, both norms are positive,
the numerator is the dot product and the denominator the product of squared
norms. -/
theorem simsFrom_mem : ∀ (q : List ℚ) (i : Nat) (ds : List (List ℚ))
    (sims : List (Nat × Score)), simsFrom q i ds = some sims → ∀ p ∈ sims,
    ∃ j, j < ds.length ∧ p.1 = i + j ∧ 0 < sqNormQ q ∧
      0 < sqNormQ (ds.getD j []) ∧ dotQ q (ds.getD j []) = some p.2.num ∧
      p.2.den = sqNormQ q * sqNormQ (ds.getD j []) := by
  intro q i ds
  induction ds generalizing i with
  | nil =>
    intro sims h p hp
    unfold simsFrom at h
    injection h with h
    subst h
    cases hp
  | cons d ds ih =>
    intro sims h p hp
    unfold simsFrom at h
    by_cases hg : 0 < sqNormQ q ∧ 0 < sqNormQ d
    · rw [if_pos hg] at h
      cases hdot : dotQ q d with
      | none => rw [hdot] at h; cases h
      | some dv =>
        rw [hdot] at h
        cases hrest : simsFrom q (i + 1) ds with
        | none => rw [hrest] at h; cases h
        | some rest =>
          rw [hrest] at h
          simp only [Option.map, Option.some.injEq] at h
          subst h
          rcases List.mem_cons.mp hp with hp | hp
          · subst hp
            exact ⟨0, by simp, by simp, hg.1, by simpa using hg.2, by simpa using hdot,
              by simp⟩
          · obtain ⟨j, hj, hpi, hq2, hd2, hdot2, hden2⟩ := ih (i + 1) rest hrest p hp
            refine ⟨j + 1, by simpa using hj, by omega, hq2, ?_, ?_, ?_⟩
            · simpa [List.getD_cons_succ] using hd2
            · simpa [List.getD_cons_succ] using hdot2
            · simpa [List.getD_cons_succ] using hden2
    · rw [if_neg hg] at h
      obtain ⟨j, hj, hpi, hq2, hd2, hdot2, hden2⟩ := ih (i + 1) sims h p hp
      refine ⟨j + 1, by simpa using hj, by omega, hq2, ?_, ?_, ?_⟩
      · simpa [List.getD_cons_succ] using hd2
      · simpa [List.getD_cons_succ] using hdot2
      · simpa [List.getD_cons_succ] using hden2

/-- Converse: every stored embedding with positive norm (and positive query
norm) whose dot product succeeds is recorded in the similarity list. -/
theorem simsFrom_mem_of : ∀ (q : List ℚ) (i : Nat) (ds : List (List ℚ))
    (sims : List (Nat × Score)), simsFrom q i ds = some sims →
    ∀ j, j < ds.length → 0 < sqNormQ q → 0 < sqNormQ (ds.getD j []) →
    ∀ dv, dotQ q (ds.getD j []) = some dv →
    (i + j, Score.mk dv (sqNormQ q * sqNormQ (ds.getD j []))) ∈ sims := by
  intro q i ds
  induction ds generalizing i with
  | nil =>
    intro sims _ j hj
    exact absurd hj (Nat.not_lt_zero j)
  | cons d ds ih =>
    intro sims h j hj hq hd dv hdot
    unfold simsFrom at h
    cases j with
    | zero =>
      rw [List.getD_cons_zero] at hd hdot
      rw [if_pos ⟨hq, hd⟩, hdot] at h
      cases hrest : simsFrom q (i + 1) ds with
      | none => rw [hrest] at h; cases h
      | some rest =>
        rw [hrest] at h
        simp only [Option.map, Option.some.injEq] at h
        subst h
        simp [List.getD_cons_zero]
    | succ j =>
      rw [List.getD_cons_succ] at hd hdot
      rw [List.getD_cons_succ]
      simp only [List.length_cons] at hj
      have heq : i + (j + 1) = (i + 1) + j := by omega
      by_cases hg : 0 < sqNormQ q ∧ 0 < sqNormQ d
      · rw [if_pos hg] at h
        cases hdot0 : dotQ q d with
        | none => rw [hdot0] at h; cases h
        | some dv0 =>
          rw [hdot0] at h
          cases hrest : simsFrom q (i + 1) ds with
          | none => rw [hrest] at h; cases h
          | some rest =>
            rw [hrest] at h
            simp only [Option.map, Option.some.injEq] at h
            subst h
            refine List.mem_cons_of_mem _ ?_
            rw [heq]
            exact ih (i + 1) rest hrest j (by omega) hq hd dv hdot
      · rw [if_neg hg] at h
        rw [heq]
        exact ih (i + 1) sims h j (by omega) hq hd dv hdot

/-- Counting: the number of similarity entries meeting threshold `t` equals
the number of stored embeddings passing the threshold test. -/
theorem simsFrom_filter_length : ∀ (q : List ℚ) (t : ℚ) (i : Nat)
    (ds : List (List ℚ)) (sims : List (Nat × Score)),
    simsFrom q i ds = some sims →
    (sims.filter (fun p => Score.ble (Score.mk t 1) p.2)).length =
      ds.countP (passesThreshold q t) := by
  intro q t i ds
  induction ds generalizing i with
  | nil =>
    intro sims h
    injection h with h
    subst h
    rfl
  | cons d ds ih =>
    intro sims h
    unfold simsFrom at h
    rw [List.countP_cons]
    by_cases hg : 0 < sqNormQ q ∧ 0 < sqNormQ d
    · rw [if_pos hg] at h
      cases hdot : dotQ q d with
      | none => rw [hdot] at h; cases h
      | some dv =>
        rw [hdot] at h
        cases hrest : simsFrom q (i + 1) ds with
        | none => rw [hrest] at h; cases h
        | some rest =>
          rw [hrest] at h
          simp only [Option.map, Option.some.injEq] at h
          subst h
          rw [List.filter_cons]
          have hpass : passesThreshold q t d =
              Score.ble (Score.mk t 1) (Score.mk dv (sqNormQ q * sqNormQ d)) := by
            unfold passesThreshold
            rw [hdot]
            simp [hg.1, hg.2]
          by_cases hb : Score.ble (Score.mk t 1)
              (Score.mk dv (sqNormQ q * sqNormQ d)) = true
          · rw [if_pos (by simpa using hb), List.length_cons, ih (i + 1) rest hrest,
              hpass, if_pos hb]
          · rw [if_neg (by simpa using hb), ih (i + 1) rest hrest, hpass,
              if_neg hb]
            omega
    · rw [if_neg hg] at h
      have hpass : passesThreshold q t d = false := by
        unfold passesThreshold
        rcases not_and_or.mp hg with hq | hd
        · simp [hq]
        · simp [hd]
      rw [ih (i + 1) sims h, hpass]
      simp

theorem dotQ_eq_none_iff : ∀ (a b : List ℚ), dotQ a b = none ↔ a.length ≠ b.length := by
  intro a
  induction a with
  | nil =>
    intro b
    cases b with
    | nil => simp [dotQ]
    | cons y ys => simp [dotQ]
  | cons x xs ih =>
    intro b
    cases b with
    | nil => simp [dotQ]
    | cons y ys =>
      have : dotQ (x :: xs) (y :: ys) = (dotQ xs ys).map (fun t => x * y + t) := rfl
      rw [this]
      cases hd : dotQ xs ys with
      | none =>
        have hlen := (ih ys).mp hd
        constructor
        · intro _
          simp only [List.length_cons]
          omega
        · intro _; rfl
      | some t =>
        have hne : xs.length = ys.length := by
          by_contra hc
          rw [(ih ys).mpr hc] at hd
          cases hd
        constructor
        · intro hc; cases hc
        · intro hc
          simp only [List.length_cons] at hc
          omega

/-- A length mismatch between the query and any positive-norm stored embedding
makes the similarity loop raise. -/
theorem simsFrom_eq_none_of_mismatch : ∀ (q : List ℚ) (i : Nat)
    (ds : List (List ℚ)), 0 < sqNormQ q →
    ∀ j, j < ds.length → 0 < sqNormQ (ds.getD j []) →
    dotQ q (ds.getD j []) = none → simsFrom q i ds = none := by
  intro q i ds hq
  induction ds generalizing i with
  | nil =>
    intro j hj
    exact absurd hj (Nat.not_lt_zero j)
  | cons d ds ih =>
    intro j hj hd hdot
    unfold simsFrom
    cases j with
    | zero =>
      rw [List.getD_cons_zero] at hd hdot
      rw [if_pos ⟨hq, hd⟩, hdot]
    | succ j =>
      rw [List.getD_cons_succ] at hd hdot
      simp only [List.length_cons] at hj
      have hrest : simsFrom q (i + 1) ds = none := ih (i + 1) j (by omega) hd hdot
      by_cases hg : 0 < sqNormQ q ∧ 0 < sqNormQ d
      · rw [if_pos hg]
        cases hdot0 : dotQ q d with
        | none => rfl
        | some dv0 => rw [hrest]; rfl
      · rw [if_neg hg]
        exact hrest


/-- Structure of a successful `similarity_search`: the result is the sorted,
threshold-filtered, truncated similarity list mapped through the result
constructor. -/
theorem similarity_search_some (st : Store) (q : List ℚ) (k : Nat)
    (thr : Option ℚ) (rs : List Doc)
    (h : st.similarity_search q k thr = some rs) :
    ∃ sims, simsFrom q 0 st.embeddings = some sims ∧
      rs = ((match thr with
        | some t => (List.insertionSort simGE sims).filter
            (fun (p : Nat × Score) => Score.ble (Score.mk t 1) p.2)
        | none => List.insertionSort simGE sims).take k).map
          (fun (p : Nat × Score) => mkResult st.cfg (st.documents.getD p.1 []) p.2) := by
  unfold Store.similarity_search at h
  by_cases he : st.embeddings.isEmpty = true
  · rw [if_pos he] at h
    injection h with h
    have he2 : st.embeddings = [] := List.isEmpty_iff.mp he
    subst h
    refine ⟨[], by rw [he2]; rfl, ?_⟩
    cases thr with
    | none => simp
    | some t => simp
  · rw [if_neg he] at h
    cases hs : simsFrom q 0 st.embeddings with
    | none => rw [hs] at h; cases h
    | some sims =>
      rw [hs] at h
      injection h with h
      exact ⟨sims, rfl, h.symm⟩

/-- `similarity_search` depends only on the configuration and the two parallel
lists. -/
theorem similarity_search_congr (st1 st2 : Store) (hc : st1.cfg = st2.cfg)
    (hd : st1.documents = st2.documents) (he : st1.embeddings = st2.embeddings) :
    ∀ q k thr, st1.similarity_search q k thr = st2.similarity_search q k thr := by
  intro q k thr
  unfold Store.similarity_search
  rw [hc, hd, he]

/-- `addOne` on a dict entry never raises: it keeps the entry exactly when
both configured fields are present. -/
theorem addOne_obj (cfg : Config) (m : Doc) (docs : List Doc)
    (embs : List (List ℚ)) (n : Nat) :
    addOne cfg (.vObj m) docs embs n =
      if hasKey m cfg.embeddings_field then
        (if hasKey m cfg.content_field then
          .ok (docs ++ [m], embs ++ [embOf cfg m], n + 1)
        else .ok (docs, embs, n))
      else .ok (docs, embs, n) := by
  by_cases h1 : hasKey m cfg.embeddings_field = true <;>
    by_cases h2 : hasKey m cfg.content_field = true <;>
      simp [addOne, checkFieldIn, h1, h2, embOf]

theorem addLoop_all_obj : ∀ (cfg : Config) (batch : List Value) (docs : List Doc)
    (embs : List (List ℚ)) (n : Nat), batch.all Value.isObj = true →
    addLoop cfg batch docs embs n =
      .ok (docs ++ batch.filterMap (keepDoc cfg),
        embs ++ (batch.filterMap (keepDoc cfg)).map (embOf cfg),
        n + (batch.filterMap (keepDoc cfg)).length) := by
  intro cfg batch
  induction batch with
  | nil => intro docs embs n _; simp [addLoop]
  | cons v rest ih =>
    intro docs embs n hall
    rw [List.all_cons, Bool.and_eq_true] at hall
    cases v with
    | vObj m =>
      have heq : addLoop cfg (Value.vObj m :: rest) docs embs n =
          match addOne cfg (Value.vObj m) docs embs n with
          | .error s => .error s
          | .ok (docs2, embs2, n2) => addLoop cfg rest docs2 embs2 n2 := rfl
      rw [heq, addOne_obj]
      by_cases h1 : hasKey m cfg.embeddings_field = true
      · by_cases h2 : hasKey m cfg.content_field = true
        · rw [if_pos h1, if_pos h2]
          have hkeep : keepDoc cfg (Value.vObj m) = some m := by
            simp [keepDoc, h1, h2]
          rw [List.filterMap_cons, hkeep]
          show addLoop cfg rest (docs ++ [m]) (embs ++ [embOf cfg m]) (n + 1) = _
          rw [ih (docs ++ [m]) (embs ++ [embOf cfg m]) (n + 1) hall.2]
          simp only [Except.ok.injEq, Prod.mk.injEq, List.map_cons, List.length_cons]
          refine ⟨by simp, by simp, by omega⟩
        · rw [if_pos h1, if_neg h2]
          have hkeep : keepDoc cfg (Value.vObj m) = none := by
            simp [keepDoc, h2]
          rw [List.filterMap_cons, hkeep]
          show addLoop cfg rest docs embs n = _
          exact ih docs embs n hall.2
      · rw [if_neg h1]
        have hkeep : keepDoc cfg (Value.vObj m) = none := by
          simp [keepDoc, h1]
        rw [List.filterMap_cons, hkeep]
        show addLoop cfg rest docs embs n = _
        exact ih docs embs n hall.2
    | vStr s => simp [Value.isObj] at hall
    | vNum qq => simp [Value.isObj] at hall
    | vBool b => simp [Value.isObj] at hall
    | vNull => simp [Value.isObj] at hall
    | vList l => simp [Value.isObj] at hall
    | vScore a b => simp [Value.isObj] at hall

/-- Any outcome of one `add_documents` iteration preserves the parallel-lists
invariant. -/
theorem addOne_inv (cfg : Config) (v : Value) (docs : List Doc)
    (embs : List (List ℚ)) (n : Nat) (h : embs = docs.map (embOf cfg)) :
    (∀ d e n2, addOne cfg v docs embs n = .ok (d, e, n2) →
      e = d.map (embOf cfg)) ∧
    (∀ d e, addOne cfg v docs embs n = .error (d, e) →
      e = d.map (embOf cfg)) := by
  unfold addOne
  cases hc1 : checkFieldIn cfg.embeddings_field v with
  | none =>
    constructor
    · intro d e n2 hh; cases hh
    · intro d e hh
      injection hh with hh
      injection hh with hh1 hh2
      subst hh1
      subst hh2
      exact h
  | some b1 =>
    cases b1 with
    | false =>
      constructor
      · intro d e n2 hh
        injection hh with hh
        injection hh with hh1 hh2
        injection hh2 with hh2 hh3
        subst hh1
        subst hh2
        exact h
      · intro d e hh; cases hh
    | true =>
      cases hc2 : checkFieldIn cfg.content_field v with
      | none =>
        constructor
        · intro d e n2 hh; cases hh
        · intro d e hh
          injection hh with hh
          injection hh with hh1 hh2
          subst hh1
          subst hh2
          exact h
      | some b2 =>
        cases b2 with
        | false =>
          constructor
          · intro d e n2 hh
            injection hh with hh
            injection hh with hh1 hh2
            injection hh2 with hh2 hh3
            subst hh1
            subst hh2
            exact h
          · intro d e hh; cases hh
        | true =>
          cases v with
          | vObj m =>
            constructor
            · intro d e n2 hh
              injection hh with hh
              injection hh with hh1 hh2
              injection hh2 with hh2 hh3
              subst hh1
              subst hh2
              rw [h, List.map_append]
              rfl
            · intro d e hh; cases hh
          | vStr s =>
            constructor
            · intro d e n2 hh; cases hh
            · intro d e hh
              injection hh with hh
              injection hh with hh1 hh2
              subst hh1
              subst hh2
              exact h
          | vNum q =>
            constructor
            · intro d e n2 hh; cases hh
            · intro d e hh
              injection hh with hh
              injection hh with hh1 hh2
              subst hh1
              subst hh2
              exact h
          | vBool b =>
            constructor
            · intro d e n2 hh; cases hh
            · intro d e hh
              injection hh with hh
              injection hh with hh1 hh2
              subst hh1
              subst hh2
              exact h
          | vNull =>
            constructor
            · intro d e n2 hh; cases hh
            · intro d e hh
              injection hh with hh
              injection hh with hh1 hh2
              subst hh1
              subst hh2
              exact h
          | vList l =>
            constructor
            · intro d e n2 hh; cases hh
            · intro d e hh
              injection hh with hh
              injection hh with hh1 hh2
              subst hh1
              subst hh2
              exact h
          | vScore a b =>
            constructor
            · intro d e n2 hh; cases hh
            · intro d e hh
              injection hh with hh
              injection hh with hh1 hh2
              subst hh1
              subst hh2
              exact h

/-- The whole `add_documents` loop preserves the parallel-lists invariant, in
both the normal and the raising outcome. -/
theorem addLoop_inv : ∀ (cfg : Config) (batch : List Value) (docs : List Doc)
    (embs : List (List ℚ)) (n : Nat), embs = docs.map (embOf cfg) →
    (∀ d e n2, addLoop cfg batch docs embs n = .ok (d, e, n2) →
      e = d.map (embOf cfg)) ∧
    (∀ d e, addLoop cfg batch docs embs n = .error (d, e) →
      e = d.map (embOf cfg)) := by
  intro cfg batch
  induction batch with
  | nil =>
    intro docs embs n h
    constructor
    · intro d e n2 hh
      injection hh with hh
      injection hh with hh1 hh2
      injection hh2 with hh2 hh3
      subst hh1
      subst hh2
      exact h
    · intro d e hh; cases hh
  | cons v rest ih =>
    intro docs embs n h
    have hone := addOne_inv cfg v docs embs n h
    have heq : addLoop cfg (v :: rest) docs embs n =
        match addOne cfg v docs embs n with
        | .error s => .error s
        | .ok (docs2, embs2, n2) => addLoop cfg rest docs2 embs2 n2 := rfl
    cases ha : addOne cfg v docs embs n with
    | error s =>
      rw [ha] at heq
      obtain ⟨s1, s2⟩ := s
      constructor
      · intro d e n2 hh
        rw [heq] at hh
        cases hh
      · intro d e hh
        rw [heq] at hh
        injection hh with hh
        injection hh with hh1 hh2
        subst hh1
        subst hh2
        exact hone.2 _ _ ha
    | ok triple =>
      obtain ⟨d2, e2, n2⟩ := triple
      rw [ha] at heq
      have h2 : e2 = d2.map (embOf cfg) := hone.1 d2 e2 n2 ha
      have hrest := ih d2 e2 n2 h2
      constructor
      · intro d e n3 hh
        rw [heq] at hh
        exact hrest.1 d e n3 hh
      · intro d e hh
        rw [heq] at hh
        exact hrest.2 d e hh

theorem Store.Inv_iff (st : Store) :
    st.Inv ↔ st.embeddings = st.documents.map (embOf st.cfg) := Iff.rfl

/-- `add_documents` preserves the parallel-lists invariant in both outcomes. -/
theorem add_documents_inv (st : Store) (batch : List Value) (h : st.Inv) :
    (∀ st2 n, st.add_documents batch = .ok (st2, n) → st2.Inv) ∧
    (∀ st2, st.add_documents batch = .error st2 → st2.Inv) := by
  have hl := addLoop_inv st.cfg batch st.documents st.embeddings 0
    ((Store.Inv_iff st).mp h)
  constructor
  · intro st2 n hh
    unfold Store.add_documents at hh
    cases ha : addLoop st.cfg batch st.documents st.embeddings 0 with
    | ok triple =>
      obtain ⟨d, e, n2⟩ := triple
      rw [ha] at hh
      injection hh with hh
      injection hh with hh1 hh2
      subst hh2
      rw [← hh1]
      exact (Store.Inv_iff _).mpr (hl.1 d e n2 ha)
    | error s =>
      rw [ha] at hh
      cases hh
  · intro st2 hh
    unfold Store.add_documents at hh
    cases ha : addLoop st.cfg batch st.documents st.embeddings 0 with
    | ok triple =>
      obtain ⟨d, e, n2⟩ := triple
      rw [ha] at hh
      cases hh
    | error s =>
      obtain ⟨d, e⟩ := s
      rw [ha] at hh
      injection hh with hh
      rw [← hh]
      exact (Store.Inv_iff _).mpr (hl.2 d e ha)

/-- `load` preserves the parallel-lists invariant in every branch. -/
theorem load_inv (st : Store) (f : LoadFile) (h : st.Inv) :
    ((st.load f).2).Inv := by
  cases f with
  | missing => exact h
  | malformed => exact h
  | parsed v =>
    cases v with
    | vObj fields =>
      dsimp only [Store.load]
      have hl := addLoop_inv st.cfg
        ((iterateVal ((getVal fields "documents").getD (Value.vList []))).getD [])
        [] [] 0 rfl
      cases hiter : iterateVal ((getVal fields "documents").getD (Value.vList [])) with
      | none => exact (Store.Inv_iff _).mpr rfl
      | some items =>
        dsimp only
        have hl2 := addLoop_inv st.cfg items [] [] 0 rfl
        cases ha : addLoop st.cfg items [] [] 0 with
        | ok triple =>
          obtain ⟨d, e, n2⟩ := triple
          exact (Store.Inv_iff _).mpr (hl2.1 d e n2 ha)
        | error s =>
          obtain ⟨d, e⟩ := s
          exact (Store.Inv_iff _).mpr (hl2.2 d e ha)
    | vStr s => exact h
    | vNum q => exact h
    | vBool b => exact h
    | vNull => exact h
    | vList l => exact h
    | vScore a b => exact h

/-- Every reachable store satisfies the parallel-lists invariant. -/
theorem reachable_inv (st : Store) (h : Reachable st) : st.Inv := by
  induction h with
  | init cfg persist => exact (Store.Inv_iff _).mpr rfl
  | add_ok st batch st2 n _ heq ih =>
    exact (add_documents_inv st batch ih).1 st2 n heq
  | add_err st batch st2 _ heq ih =>
    exact (add_documents_inv st batch ih).2 st2 heq
  | load_any st f b st2 _ heq ih =>
    have hload := load_inv st f ih
    rw [heq] at hload
    exact hload

theorem filterMap_keepDoc_vObj : ∀ (cfg : Config) (L : List Doc),
    (∀ m ∈ L, hasKey m cfg.embeddings_field = true ∧
      hasKey m cfg.content_field = true) →
    (L.map Value.vObj).filterMap (keepDoc cfg) = L := by
  intro cfg L
  induction L with
  | nil => intro _; rfl
  | cons m L ih =>
    intro hkeys
    have hm := hkeys m (List.mem_cons_self m L)
    rw [List.map_cons, List.filterMap_cons]
    have hkeep : keepDoc cfg (Value.vObj m) = some m := by
      simp [keepDoc, hm.1, hm.2]
    rw [hkeep, ih (fun d hd => hkeys d (List.mem_cons_of_mem m hd))]

/-- Common core of the top-k claims: whenever the result list is an image of
a truncated sub-selection `L` of the similarity list that is sorted
descendingly, the result is bounded by `k`, every result carries a
`similarity_score` in `[-1, 1]`, and results are sorted non-increasingly. -/
theorem search_core (st : Store) (q : List ℚ) (k : Nat)
    (sims L : List (Nat × Score)) (rs : List Doc)
    (hemb : st.cfg.embeddings_field ≠ "similarity_score")
    (hs : simsFrom q 0 st.embeddings = some sims)
    (hL1 : L.Pairwise simGE) (hL2 : ∀ p ∈ L, p ∈ sims)
    (hrs : rs = (L.take k).map
      (fun (p : Nat × Score) => mkResult st.cfg (st.documents.getD p.1 []) p.2)) :
    rs.length ≤ k ∧
    (∀ r ∈ rs, ∃ s : Score,
      getVal r "similarity_score" = some (.vScore s.num s.den) ∧
      -1 ≤ s.val ∧ s.val ≤ 1) ∧
    rs.Pairwise (fun r1 r2 => resVal r2 ≤ resVal r1) := by
  have hres : ∀ p : Nat × Score,
      resVal (mkResult st.cfg (st.documents.getD p.1 []) p.2) = p.2.val := by
    intro p
    unfold resVal
    rw [getVal_mkResult_score _ _ _ hemb]
  refine ⟨?_, ?_, ?_⟩
  · rw [hrs, List.length_map, List.length_take]
    exact min_le_left _ _
  · intro r hr
    rw [hrs] at hr
    obtain ⟨p, hp, hpr⟩ := List.mem_map.mp hr
    obtain ⟨j, hj, hpi, hq, hd, hdot, hden⟩ :=
      simsFrom_mem q 0 st.embeddings sims hs p (hL2 p (List.mem_of_mem_take hp))
    refine ⟨p.2, ?_, ?_⟩
    · rw [← hpr]
      exact getVal_mkResult_score _ _ _ hemb
    · apply Score.val_bound
      · rw [hden]
        exact mul_pos hq hd
      · rw [hden]
        exact dotQ_sq_le_sqNorm_mul q _ p.2.num hdot
  · rw [hrs, List.pairwise_map]
    have htake : (L.take k).Pairwise simGE :=
      List.Pairwise.sublist (List.take_sublist k L) hL1
    refine List.Pairwise.imp_of_mem ?_ htake
    intro p1 p2 _ _ hrel
    rw [hres p1, hres p2]
    exact (Score.ble_iff p2.2 p1.2).mp hrel

/-- C1: for every store, query embedding and `k`, a `similarity_search` call
that returns does so with at most `k` results, each carrying a
`similarity_score` whose real value lies in `[-1, 1]`, and the sequence is
sorted non-increasingly by that score.  (The hypothesis that the configured
embeddings field is not literally named `"similarity_score"` keeps the score
key from being deleted by the embedding-stripping step; the data model fixes
that field to `"embedding"`.) -/
theorem claim1_topk_scores_sorted (st : Store) (q : List ℚ) (k : Nat)
    (thr : Option ℚ) (rs : List Doc)
    (hemb : st.cfg.embeddings_field ≠ "similarity_score")
    (h : st.similarity_search q k thr = some rs) :
    rs.length ≤ k ∧
    (∀ r ∈ rs, ∃ s : Score,
      getVal r "similarity_score" = some (.vScore s.num s.den) ∧
      -1 ≤ s.val ∧ s.val ≤ 1) ∧
    rs.Pairwise (fun r1 r2 => resVal r2 ≤ resVal r1) := by
  obtain ⟨sims, hs, hrs⟩ := similarity_search_some st q k thr rs h
  have hsort : (List.insertionSort simGE sims).Pairwise simGE :=
    @List.sorted_insertionSort _ simGE simGE_dec simGE_total simGE_trans sims
  have hmem : ∀ p ∈ List.insertionSort simGE sims, p ∈ sims := fun p hp =>
    (List.perm_insertionSort simGE sims).mem_iff.mp hp
  cases thr with
  | none => exact search_core st q k sims _ rs hemb hs hsort hmem hrs
  | some t =>
    refine search_core st q k sims _ rs hemb hs ?_ ?_ hrs
    · exact List.Pairwise.sublist (List.filter_sublist _) hsort
    · intro p hp
      exact hmem p (List.mem_of_mem_filter hp)

/-- Witness for C1: the one-document store, query `[1, 0]`, `k = 2`. -/
theorem claim1_witness :
    stOne.cfg.embeddings_field ≠ "similarity_score" ∧
    stOne.similarity_search [1, 0] 2 none = some [resA] ∧
    ([resA].length ≤ 2 ∧
     (∀ r ∈ [resA], ∃ s : Score,
       getVal r "similarity_score" = some (.vScore s.num s.den) ∧
       -1 ≤ s.val ∧ s.val ≤ 1) ∧
     [resA].Pairwise (fun r1 r2 => resVal r2 ≤ resVal r1)) := by
  have hemb : stOne.cfg.embeddings_field ≠ "similarity_score" := by decide
  have h : stOne.similarity_search [1, 0] 2 none = some [resA] := by
    simp +decide [stOne, docA, resA, Store.similarity_search, simsFrom, sqNormQ,
      dotQ, mkResult, setVal, delKey, hasKey, getVal, simGE, Score.ble]
  exact ⟨hemb, h, claim1_topk_scores_sorted stOne [1, 0] 2 none [resA] hemb h⟩

/-- C2: with a threshold `t`, every returned result scores at least `t`, and
the filter happens before truncation: when fewer than `k` stored embeddings
pass the threshold test, every passing embedding's document appears in the
result. -/
theorem claim2_threshold_before_topk (st : Store) (q : List ℚ) (k : Nat)
    (t : ℚ) (rs : List Doc)
    (hemb : st.cfg.embeddings_field ≠ "similarity_score")
    (h : st.similarity_search q k (some t) = some rs) :
    (∀ r ∈ rs, (t : ℝ) ≤ resVal r) ∧
    (st.embeddings.countP (passesThreshold q t) < k →
      ∀ j, j < st.embeddings.length → 0 < sqNormQ q →
        0 < sqNormQ (st.embeddings.getD j []) →
        ∀ dv, dotQ q (st.embeddings.getD j []) = some dv →
        (t : ℝ) ≤ (Score.mk dv (sqNormQ q * sqNormQ (st.embeddings.getD j []))).val →
        mkResult st.cfg (st.documents.getD j [])
          (Score.mk dv (sqNormQ q * sqNormQ (st.embeddings.getD j []))) ∈ rs) := by
  obtain ⟨sims, hs, hrs⟩ := similarity_search_some st q k (some t) rs h
  have hres : ∀ p : Nat × Score,
      resVal (mkResult st.cfg (st.documents.getD p.1 []) p.2) = p.2.val := by
    intro p
    unfold resVal
    rw [getVal_mkResult_score _ _ _ hemb]
  constructor
  · intro r hr
    rw [hrs] at hr
    obtain ⟨p, hp, hpr⟩ := List.mem_map.mp hr
    have hpf : p ∈ (List.insertionSort simGE sims).filter
        (fun (p : Nat × Score) => Score.ble (Score.mk t 1) p.2) :=
      List.mem_of_mem_take hp
    have hble : Score.ble (Score.mk t 1) p.2 = true :=
      (List.mem_filter.mp hpf).2
    rw [← hpr, hres p]
    have := (Score.ble_iff (Score.mk t 1) p.2).mp hble
    rwa [Score.val_mk_one] at this
  · intro hcount j hj hq hd dv hdot hval
    have hmem : (0 + j, Score.mk dv
        (sqNormQ q * sqNormQ (st.embeddings.getD j []))) ∈ sims :=
      simsFrom_mem_of q 0 st.embeddings sims hs j hj hq hd dv hdot
    rw [Nat.zero_add] at hmem
    have hble : Score.ble (Score.mk t 1)
        (Score.mk dv (sqNormQ q * sqNormQ (st.embeddings.getD j []))) = true := by
      rw [Score.ble_iff, Score.val_mk_one]
      exact hval
    have hpf : (j, Score.mk dv (sqNormQ q * sqNormQ (st.embeddings.getD j []))) ∈
        (List.insertionSort simGE sims).filter
          (fun (p : Nat × Score) => Score.ble (Score.mk t 1) p.2) := by
      rw [List.mem_filter]
      exact ⟨(List.perm_insertionSort simGE sims).mem_iff.mpr hmem, hble⟩
    have hlen : ((List.insertionSort simGE sims).filter
        (fun (p : Nat × Score) => Score.ble (Score.mk t 1) p.2)).length =
        st.embeddings.countP (passesThreshold q t) := by
      rw [((List.perm_insertionSort simGE sims).filter
        (fun (p : Nat × Score) => Score.ble (Score.mk t 1) p.2)).length_eq]
      exact simsFrom_filter_length q t 0 st.embeddings sims hs
    have htake : ((List.insertionSort simGE sims).filter
        (fun (p : Nat × Score) => Score.ble (Score.mk t 1) p.2)).take k =
        (List.insertionSort simGE sims).filter
          (fun (p : Nat × Score) => Score.ble (Score.mk t 1) p.2) := by
      apply List.take_of_length_le
      rw [hlen]
      omega
    rw [hrs, htake]
    exact List.mem_map.mpr ⟨_, hpf, rfl⟩

/-- Witness for C2: one-document store, threshold `1/2`, `k = 2`. -/
theorem claim2_witness :
    stOne.cfg.embeddings_field ≠ "similarity_score" ∧
    stOne.similarity_search [1, 0] 2 (some (1 / 2)) = some [resA] ∧
    ((∀ r ∈ [resA], ((1 / 2 : ℚ) : ℝ) ≤ resVal r) ∧
     (stOne.embeddings.countP (passesThreshold [1, 0] (1 / 2)) < 2 →
      ∀ j, j < stOne.embeddings.length → 0 < sqNormQ [1, 0] →
        0 < sqNormQ (stOne.embeddings.getD j []) →
        ∀ dv, dotQ [1, 0] (stOne.embeddings.getD j []) = some dv →
        ((1 / 2 : ℚ) : ℝ) ≤
          (Score.mk dv (sqNormQ [1, 0] * sqNormQ (stOne.embeddings.getD j []))).val →
        mkResult stOne.cfg (stOne.documents.getD j [])
          (Score.mk dv (sqNormQ [1, 0] * sqNormQ (stOne.embeddings.getD j []))) ∈
          [resA])) := by
  have hemb : stOne.cfg.embeddings_field ≠ "similarity_score" := by decide
  have h : stOne.similarity_search [1, 0] 2 (some (1 / 2)) = some [resA] := by
    simp +decide [stOne, docA, resA, Store.similarity_search, simsFrom, sqNormQ,
      dotQ, mkResult, setVal, delKey, hasKey, getVal, simGE, Score.ble]
    norm_num
    simp +decide [mkResult, setVal, delKey, hasKey, getVal]
  exact ⟨hemb, h,
    claim2_threshold_before_topk stOne [1, 0] 2 (1 / 2) [resA] hemb h⟩

/-- C5: on a batch of dict documents, `add_documents` never raises; it skips
exactly the documents missing the configured content or embeddings field,
appends the remaining documents in order, and returns their count. -/
theorem claim5_add_skips_and_counts (st : Store) (batch : List Value)
    (hb : batch.all Value.isObj = true) :
    st.add_documents batch =
      .ok ({ st with
          documents := st.documents ++ batch.filterMap (keepDoc st.cfg),
          embeddings := st.embeddings ++
            (batch.filterMap (keepDoc st.cfg)).map (embOf st.cfg) },
        (batch.filterMap (keepDoc st.cfg)).length) := by
  unfold Store.add_documents
  rw [addLoop_all_obj st.cfg batch st.documents st.embeddings 0 hb]
  rw [Nat.zero_add]

/-- Witness for C5, the spec's Scenario 3: one well-formed document plus one
missing `content` yields `added_count = 1` and a store holding exactly one
document. -/
theorem claim5_witness :
    batchW.all Value.isObj = true ∧
    ∃ st2 n, (Store.init {} none).add_documents batchW = .ok (st2, n) ∧
      n = 1 ∧ st2.documents.length = 1 := by
  have hb : batchW.all Value.isObj = true := by decide
  refine ⟨hb, _, _, claim5_add_skips_and_counts (Store.init {} none) batchW hb,
    ?_, ?_⟩
  · decide
  · decide

/-- C6: when retrieval returns zero documents, `process_query` answers with
the fixed no-results message and an empty source list, and the LLM client is
never invoked (the call log stays empty). -/
theorem claim6_empty_retrieval_skips_llm (rag : LocalRAG) (query : String)
    (chat_history : ChatHistory)
    (h : rag.retrieve query none = some []) :
    rag.process_query query chat_history = some (noInfoMsg, [], []) := by
  unfold LocalRAG.process_query
  rw [h]
  rfl

/-- Witness for C6: a RAG over the empty store retrieves nothing and answers
with the fixed message, never calling the LLM. -/
theorem claim6_witness :
    ragW.retrieve "any question" none = some [] ∧
    ragW.process_query "any question" none = some (noInfoMsg, [], []) :=
  ⟨rfl, claim6_empty_retrieval_skips_llm ragW "any question" none rfl⟩

/-- C8: the cosine division is guarded — every similarity entry has a
positive denominator; a zero-norm query short-circuits every comparison and
yields an empty result regardless of store contents; and every returned
result stems from a stored embedding of positive norm (zero-norm documents
are never included).  The store is assumed to carry numeric embedding vectors
(`numericEmbs`), the shape on which this model agrees with numpy. -/
theorem claim8_zero_norm_guard (st : Store) (q : List ℚ) (k : Nat)
    (thr : Option ℚ) (hnum : st.numericEmbs = true) :
    (sqNormQ q = 0 → st.similarity_search q k thr = some []) ∧
    (∀ sims, simsFrom q 0 st.embeddings = some sims →
      ∀ p ∈ sims, 0 < p.2.den) ∧
    (∀ rs, st.similarity_search q k thr = some rs →
      ∀ r ∈ rs, ∃ j, j < st.embeddings.length ∧
        0 < sqNormQ (st.embeddings.getD j []) ∧ 0 < sqNormQ q ∧
        ∃ s : Score, r = mkResult st.cfg (st.documents.getD j []) s) := by
  refine ⟨?_, ?_, ?_⟩
  · intro hq0
    unfold Store.similarity_search
    by_cases he : st.embeddings.isEmpty = true
    · rw [if_pos he]
    · rw [if_neg he, simsFrom_of_qnorm_nonpos q 0 st.embeddings
        (by rw [hq0]; exact lt_irrefl 0)]
      cases thr with
      | none => simp
      | some t => simp
  · intro sims hs p hp
    obtain ⟨j, hj, hpi, hq, hd, hdot, hden⟩ :=
      simsFrom_mem q 0 st.embeddings sims hs p hp
    rw [hden]
    exact mul_pos hq hd
  · intro rs h r hr
    obtain ⟨sims, hs, hrs⟩ := similarity_search_some st q k thr rs h
    rw [hrs] at hr
    obtain ⟨p, hp, hpr⟩ := List.mem_map.mp hr
    have hpin : p ∈ sims := by
      cases thr with
      | none =>
        exact (List.perm_insertionSort simGE sims).mem_iff.mp
          (List.mem_of_mem_take hp)
      | some t =>
        exact (List.perm_insertionSort simGE sims).mem_iff.mp
          (List.mem_of_mem_filter (List.mem_of_mem_take hp))
    obtain ⟨j, hj, hpi, hq, hd, hdot, hden⟩ :=
      simsFrom_mem q 0 st.embeddings sims hs p hpin
    rw [Nat.zero_add] at hpi
    refine ⟨j, hj, hd, hq, p.2, ?_⟩
    rw [← hpr, hpi]

/-- Witness for C8: the one-document store with the zero-norm query
`[0, 0]`. -/
theorem claim8_witness :
    stOne.numericEmbs = true ∧ sqNormQ [0, 0] = 0 ∧
    stOne.similarity_search [0, 0] 2 none = some [] := by
  have hnum : stOne.numericEmbs = true := by decide
  have hq : sqNormQ [0, 0] = 0 := by norm_num [sqNormQ]
  exact ⟨hnum, hq, (claim8_zero_norm_guard stOne [0, 0] 2 none hnum).1 hq⟩

/-- C9: `similarity_search` does not mutate the store (in this pure embedding
the call returns only the result list and no store), and each returned result
is the copy-with-score-added, embedding-removed image (`mkResult`, i.e.
`doc.copy()` + set `similarity_score` + delete the embeddings field) of a
stored document at a valid index; the embeddings field is absent from every
result. -/
theorem claim9_results_are_stripped_copies (st : Store) (q : List ℚ) (k : Nat)
    (thr : Option ℚ) (rs : List Doc) (hinv : st.Inv)
    (h : st.similarity_search q k thr = some rs) :
    ∀ r ∈ rs, ∃ j s, j < st.documents.length ∧
      r = mkResult st.cfg (st.documents.getD j []) s ∧
      getVal r st.cfg.embeddings_field = none := by
  intro r hr
  obtain ⟨sims, hs, hrs⟩ := similarity_search_some st q k thr rs h
  rw [hrs] at hr
  obtain ⟨p, hp, hpr⟩ := List.mem_map.mp hr
  have hpin : p ∈ sims := by
    cases thr with
    | none =>
      exact (List.perm_insertionSort simGE sims).mem_iff.mp
        (List.mem_of_mem_take hp)
    | some t =>
      exact (List.perm_insertionSort simGE sims).mem_iff.mp
        (List.mem_of_mem_filter (List.mem_of_mem_take hp))
  obtain ⟨j, hj, hpi, _, _, _, _⟩ :=
    simsFrom_mem q 0 st.embeddings sims hs p hpin
  rw [Nat.zero_add] at hpi
  have hlen : st.embeddings.length = st.documents.length := by
    rw [(Store.Inv_iff st).mp hinv, List.length_map]
  refine ⟨j, p.2, by omega, ?_, ?_⟩
  · rw [← hpr, hpi]
  · rw [← hpr]
    exact mkResult_emb_none st.cfg _ p.2

/-- Witness for C9: the one-document store. -/
theorem claim9_witness :
    stOne.Inv ∧ stOne.similarity_search [1, 0] 2 none = some [resA] ∧
    (∀ r ∈ [resA], ∃ j s, j < stOne.documents.length ∧
      r = mkResult stOne.cfg (stOne.documents.getD j []) s ∧
      getVal r stOne.cfg.embeddings_field = none) := by
  have hinv : stOne.Inv := by
    rw [Store.Inv_iff]
    rfl
  have h : stOne.similarity_search [1, 0] 2 none = some [resA] := by
    simp +decide [stOne, docA, resA, Store.similarity_search, simsFrom, sqNormQ,
      dotQ, mkResult, setVal, delKey, hasKey, getVal, simGE, Score.ble]
  exact ⟨hinv, h,
    claim9_results_are_stripped_copies stOne [1, 0] 2 none [resA] hinv h⟩

/-- C10: after any sequence of store operations the parallel lists have equal
length, the `j`-th embedding is the `asVec` reading of the `j`-th document's
configured embeddings field, and every index produced by the similarity loop
is a valid index into `documents`. -/
theorem claim10_parallel_lists_invariant (st : Store) (h : Reachable st) :
    st.embeddings.length = st.documents.length ∧
    (∀ j, j < st.documents.length →
      st.embeddings.getD j [] = embOf st.cfg (st.documents.getD j [])) ∧
    (∀ q sims, simsFrom q 0 st.embeddings = some sims →
      ∀ p ∈ sims, p.1 < st.documents.length) := by
  have hinv := (Store.Inv_iff st).mp (reachable_inv st h)
  have hlen : st.embeddings.length = st.documents.length := by
    rw [hinv, List.length_map]
  refine ⟨hlen, ?_, ?_⟩
  · intro j hj
    rw [hinv]
    rw [List.getD_eq_getElem _ _ (by rw [List.length_map]; exact hj),
      List.getElem_map, List.getD_eq_getElem _ _ hj]
  · intro q sims hs p hp
    obtain ⟨j, hj, hpi, _⟩ := simsFrom_mem q 0 st.embeddings sims hs p hp
    rw [hpi]
    omega

/-- Witness for C10: `stOne` is reachable by one `add_documents` call on a
fresh store. -/
theorem claim10_witness :
    Reachable stOne ∧
    (stOne.embeddings.length = stOne.documents.length ∧
     (∀ j, j < stOne.documents.length →
       stOne.embeddings.getD j [] = embOf stOne.cfg (stOne.documents.getD j [])) ∧
     (∀ q sims, simsFrom q 0 stOne.embeddings = some sims →
       ∀ p ∈ sims, p.1 < stOne.documents.length)) := by
  have hadd : (Store.init {} none).add_documents [Value.vObj docA] =
      .ok (stOne, 1) := by
    unfold Store.add_documents
    dsimp only [Store.init]
    rw [addLoop_all_obj _ [Value.vObj docA] [] [] 0 (by decide)]
    rfl
  have hr : Reachable stOne :=
    Reachable.add_ok (Store.init {} none) [Value.vObj docA] stOne 1
      (Reachable.init {} none) hadd
  exact ⟨hr, claim10_parallel_lists_invariant stOne hr⟩

/-- C3: with a persist directory configured, `save` succeeds, and loading the
written snapshot into a fresh store with the same field-name configuration
restores the documents and embeddings exactly, so `similarity_search` results
agree with the original store for every query, `k` and threshold. -/
theorem claim3_save_load_roundtrip (st : Store) (dir now : String)
    (fresh : Store) (hpd : st.persist_directory = some dir)
    (hwf : st.wfDocs = true) (hinv : st.Inv) (hcfg : fresh.cfg = st.cfg) :
    st.save now = some (snapOf st now) ∧
    ∃ st2, fresh.load (.parsed (snapOf st now)) = (true, st2) ∧
      st2.documents = st.documents ∧ st2.embeddings = st.embeddings ∧
      ∀ q k thr, st2.similarity_search q k thr = st.similarity_search q k thr := by
  have hkeys : ∀ m ∈ st.documents, hasKey m st.cfg.embeddings_field = true ∧
      hasKey m st.cfg.content_field = true := by
    intro m hm
    unfold Store.wfDocs at hwf
    have hmm := List.all_eq_true.mp hwf m hm
    rw [Bool.and_eq_true] at hmm
    exact hmm
  constructor
  · unfold Store.save
    rw [hpd]
  · have hget : ∀ (x y : Value),
        getVal [("documents", x), ("metadata", y)] "documents" = some x := by
      intro x y
      unfold getVal
      rw [List.find?_cons_of_pos _ (by simp)]
      rfl
    have hallobj : (st.documents.map Value.vObj).all Value.isObj = true := by
      rw [List.all_eq_true]
      intro v hv
      obtain ⟨m, _, rfl⟩ := List.mem_map.mp hv
      rfl
    dsimp only [Store.load, snapOf]
    rw [hget]
    dsimp only [Option.getD, iterateVal]
    rw [hcfg, addLoop_all_obj st.cfg (st.documents.map Value.vObj) [] [] 0 hallobj,
      filterMap_keepDoc_vObj st.cfg st.documents hkeys]
    refine ⟨_, rfl, rfl, ?_, ?_⟩
    · exact ((Store.Inv_iff st).mp hinv).symm
    · intro q k thr
      apply similarity_search_congr
      · rfl
      · rfl
      · exact ((Store.Inv_iff st).mp hinv).symm

/-- Witness for C3: the one-document store with a persist directory, loaded
back into a fresh default store. -/
theorem claim3_witness :
    stOneP.persist_directory = some "snapshots" ∧ stOneP.wfDocs = true ∧
    stOneP.Inv ∧ (Store.init {} none).cfg = stOneP.cfg ∧
    (stOneP.save "ts" = some (snapOf stOneP "ts") ∧
     ∃ st2, (Store.init {} none).load (.parsed (snapOf stOneP "ts")) = (true, st2) ∧
       st2.documents = stOneP.documents ∧ st2.embeddings = stOneP.embeddings ∧
       ∀ q k thr, st2.similarity_search q k thr =
         stOneP.similarity_search q k thr) := by
  have hpd : stOneP.persist_directory = some "snapshots" := rfl
  have hwf : stOneP.wfDocs = true := by decide
  have hinv : stOneP.Inv := by
    rw [Store.Inv_iff]
    rfl
  have hcfg : (Store.init {} none).cfg = stOneP.cfg := rfl
  exact ⟨hpd, hwf, hinv, hcfg,
    claim3_save_load_roundtrip stOneP "snapshots" "ts" (Store.init {} none)
      hpd hwf hinv hcfg⟩

/-- Counterexample to C4 as stated: loading the valid JSON file
`{"documents": 5}` into the one-document store returns `False` (the
`TypeError` from iterating `5` is caught) but the store is NOT left in its
prior state — the documents list has already been cleared. -/
theorem claim4_counterexample :
    (stOne.load badFile).1 = false ∧
    (stOne.load badFile).2.documents = [] ∧
    stOne.documents ≠ [] := by
  refine ⟨rfl, rfl, ?_⟩
  intro hc
  cases hc

/-- C4 amended: `load` always returns a failure result rather than raising,
and the store is unchanged whenever the failure occurs before extraction — on
a missing file, an unparsable file, or parsed JSON whose top level is not a
dict; but once the top level is a dict whose `documents` value is not
iterable, the failure is reported only after the store was cleared. -/
theorem claim4_amended_load_failures (st : Store) :
    st.load .missing = (false, st) ∧
    st.load .malformed = (false, st) ∧
    (∀ v : Value, v.isObj = false → st.load (.parsed v) = (false, st)) ∧
    (∀ fields : List (String × Value),
      iterateVal ((getVal fields "documents").getD (.vList [])) = none →
      st.load (.parsed (.vObj fields)) =
        (false, { st with documents := [], embeddings := [] })) := by
  refine ⟨rfl, rfl, ?_, ?_⟩
  · intro v hv
    cases v with
    | vObj m => simp [Value.isObj] at hv
    | vStr s => rfl
    | vNum q => rfl
    | vBool b => rfl
    | vNull => rfl
    | vList l => rfl
    | vScore a b => rfl
  · intro fields hit
    dsimp only [Store.load]
    rw [hit]

/-- Witness for C4 (amended): the non-dict case at a list value, and the
cleared-store case at `{"documents": 5}`. -/
theorem claim4_witness :
    Value.isObj (Value.vList []) = false ∧
    stOne.load (.parsed (Value.vList [])) = (false, stOne) ∧
    iterateVal ((getVal [("documents", Value.vNum 5)] "documents").getD
      (.vList [])) = none ∧
    stOne.load (.parsed (.vObj [("documents", Value.vNum 5)])) =
      (false, { stOne with documents := [], embeddings := [] }) := by
  have h1 : Value.isObj (Value.vList []) = false := rfl
  have h2 : iterateVal ((getVal [("documents", Value.vNum 5)] "documents").getD
      (.vList [])) = none := rfl
  exact ⟨h1, (claim4_amended_load_failures stOne).2.2.1 _ h1,
    h2, (claim4_amended_load_failures stOne).2.2.2 _ h2⟩

/-- Counterexample to C7 as stated: adding to `stOne` (established dimension
2) a document with a 3-dimensional embedding is not rejected — `add_documents`
accepts it, counts it, and the store ends up holding embeddings of two
different lengths. -/
theorem claim7_counterexample :
    ∃ st2, stOne.add_documents [mismatchDoc] = .ok (st2, 1) ∧
      st2.documents.length = 2 ∧
      (st2.embeddings.getD 0 []).length = 2 ∧
      (st2.embeddings.getD 1 []).length = 3 := by
  refine ⟨{ stOne with
      documents := stOne.documents ++ [mdoc],
      embeddings := stOne.embeddings ++ [embOf stOne.cfg mdoc] },
    ?_, ?_, ?_, ?_⟩
  · unfold Store.add_documents
    rw [addLoop_all_obj _ [mismatchDoc] _ _ 0 (by decide)]
    rfl
  · decide
  · decide
  · decide

/-- C7 amended: no dimension validation happens anywhere.  `add_documents`
appends any dict carrying the two configured fields, whatever the length of
its embedding; and `similarity_search` never truncates or pads — when the
query and some positive-norm stored embedding differ in length (with a
positive-norm query), the call fails with an uncaught `ValueError` from
`np.dot` (modelled `none`) instead of returning results. -/
theorem claim7_amended_no_dimension_check :
    (∀ (st : Store) (m : Doc),
      hasKey m st.cfg.embeddings_field = true →
      hasKey m st.cfg.content_field = true →
      st.add_documents [.vObj m] =
        .ok ({ st with
            documents := st.documents ++ [m],
            embeddings := st.embeddings ++ [embOf st.cfg m] }, 1)) ∧
    (∀ (st : Store) (q : List ℚ) (k : Nat) (thr : Option ℚ),
      0 < sqNormQ q →
      (∃ j, j < st.embeddings.length ∧ 0 < sqNormQ (st.embeddings.getD j []) ∧
        (st.embeddings.getD j []).length ≠ q.length) →
      st.similarity_search q k thr = none) := by
  constructor
  · intro st m hk1 hk2
    unfold Store.add_documents
    have hstep : addLoop st.cfg [Value.vObj m] st.documents st.embeddings 0 =
        match addOne st.cfg (Value.vObj m) st.documents st.embeddings 0 with
        | .error s => .error s
        | .ok (d, e, n2) => addLoop st.cfg [] d e n2 := rfl
    rw [hstep, addOne_obj, if_pos hk1, if_pos hk2]
    rfl
  · intro st q k thr hq hex
    obtain ⟨j, hj, hd, hlen⟩ := hex
    have hdot : dotQ q (st.embeddings.getD j []) = none :=
      (dotQ_eq_none_iff _ _).mpr (fun hc => hlen hc.symm)
    have hsims := simsFrom_eq_none_of_mismatch q 0 st.embeddings hq j hj hd hdot
    unfold Store.similarity_search
    have hne : ¬ st.embeddings.isEmpty = true := by
      intro hc
      rw [List.isEmpty_iff.mp hc] at hj
      exact absurd hj (Nat.not_lt_zero j)
    rw [if_neg hne, hsims]

/-- Witness for C7 (amended): `stOne` accepts the 3-dimensional `mdoc`, and a
3-dimensional query against the 2-dimensional store makes the search fail. -/
theorem claim7_witness :
    hasKey mdoc stOne.cfg.embeddings_field = true ∧
    hasKey mdoc stOne.cfg.content_field = true ∧
    stOne.add_documents [.vObj mdoc] =
      .ok ({ stOne with
          documents := stOne.documents ++ [mdoc],
          embeddings := stOne.embeddings ++ [embOf stOne.cfg mdoc] }, 1) ∧
    0 < sqNormQ [1, 2, 3] ∧
    (∃ j, j < stOne.embeddings.length ∧
      0 < sqNormQ (stOne.embeddings.getD j []) ∧
      (stOne.embeddings.getD j []).length ≠ ([1, 2, 3] : List ℚ).length) ∧
    stOne.similarity_search [1, 2, 3] 4 none = none := by
  have hk1 : hasKey mdoc stOne.cfg.embeddings_field = true := by decide
  have hk2 : hasKey mdoc stOne.cfg.content_field = true := by decide
  have hq : 0 < sqNormQ [1, 2, 3] := by norm_num [sqNormQ]
  have hex : ∃ j, j < stOne.embeddings.length ∧
      0 < sqNormQ (stOne.embeddings.getD j []) ∧
      (stOne.embeddings.getD j []).length ≠ ([1, 2, 3] : List ℚ).length :=
    ⟨0, by decide, by norm_num [stOne, sqNormQ], by decide⟩
  exact ⟨hk1, hk2,
    claim7_amended_no_dimension_check.1 stOne mdoc hk1 hk2, hq, hex,
    claim7_amended_no_dimension_check.2 stOne [1, 2, 3] 4 none hq hex⟩
